import Mathlib

/-!
Verification of the imser full-text search core: a shallow embedding of
src/src/lib.rs (tokenizer, term dictionary, index writer, positional index,
TF-IDF scorer) together with theorems checking the specification claims.

Modelling conventions: Rust HashMap values become association lists with the
same lookup and entry-update semantics; f32 values become real numbers; a
Rust panic (unwrap) becomes Option.none; Vec::sort becomes a stable
comparator-driven insertion sort.
-/

/-- Association-list lookup, the model of HashMap::get. -/
def alookup {α β : Type} [DecidableEq α] (k : α) : List (α × β) → Option β
  | [] => none
  | (k', v) :: rest => if k = k' then some v else alookup k rest

/-- Unicode whitespace code points, the model of Rust char::is_whitespace. -/
def rustIsWhitespace (c : Char) : Bool :=
  [0x09, 0x0A, 0x0B, 0x0C, 0x0D, 0x20, 0x85, 0xA0, 0x1680,
   0x2000, 0x2001, 0x2002, 0x2003, 0x2004, 0x2005, 0x2006, 0x2007,
   0x2008, 0x2009, 0x200A, 0x2028, 0x2029, 0x202F, 0x205F, 0x3000].contains c.toNat

/-- The model of Rust char::is_ascii_punctuation. -/
def rustIsAsciiPunct (c : Char) : Bool :=
  (0x21 ≤ c.toNat && c.toNat ≤ 0x2F) || (0x3A ≤ c.toNat && c.toNat ≤ 0x40) ||
  (0x5B ≤ c.toNat && c.toNat ≤ 0x60) || (0x7B ≤ c.toNat && c.toNat ≤ 0x7E)

inductive TokenKind : Type where
  | Term : String → TokenKind
  | Punct : String → TokenKind
deriving DecidableEq

structure Token : Type where
  kind : TokenKind
  offset : Nat
  length : Nat
  position : Nat
deriving DecidableEq

/-- Byte length of a character sequence, the model of String::len. -/
def utf8Len (cs : List Char) : Nat := (cs.map Char.utf8Size).sum

def Token.new_term (t : List Char) (offset : Nat) (position : Nat) : Token :=
  { kind := TokenKind.Term (String.mk t), offset := offset,
    length := utf8Len t, position := position }

def Token.new_punct (p : List Char) (offset : Nat) (position : Nat) : Token :=
  { kind := TokenKind.Punct (String.mk p), offset := offset,
    length := utf8Len p, position := position }

/-- The loop of lib.rs tokenize: state is the remaining characters, the
accumulated term, the byte offset past the scanned prefix, and word_count. -/
def tokenizeAux : List Char → List Char → Nat → Nat → List Token
  | [], term, base_offset, word_count =>
    if term.isEmpty then []
    else [Token.new_term term (base_offset - utf8Len term) word_count]
  | c :: cs, term, base_offset, word_count =>
    if rustIsWhitespace c then
      if term.isEmpty then
        tokenizeAux cs [] (base_offset + c.utf8Size) word_count
      else
        Token.new_term term (base_offset - utf8Len term) word_count ::
          tokenizeAux cs [] (base_offset + c.utf8Size) (word_count + 1)
    else if rustIsAsciiPunct c then
      Token.new_term term (base_offset - utf8Len term) word_count ::
        Token.new_punct [c] base_offset (word_count + 1) ::
          tokenizeAux cs [] (base_offset + c.utf8Size) (word_count + 2)
    else
      tokenizeAux cs (term ++ [c]) (base_offset + c.utf8Size) word_count

def tokenize (sentence : String) : List Token :=
  tokenizeAux sentence.data [] 0 0

structure Document : Type where
  body : String
deriving DecidableEq

structure TermFreq : Type where
  term_count : Nat
  terms : List (String × Nat)
deriving DecidableEq

def TermFreq.new : TermFreq := { term_count := 0, terms := [] }

/-- HashMap::insert on the terms table (overwrite or append). -/
def updTerms (t : String) (cnt : Nat) : List (String × Nat) → List (String × Nat)
  | [] => [(t, cnt)]
  | (t', c) :: rest =>
    if t = t' then (t, cnt) :: rest else (t', c) :: updTerms t cnt rest

def TermFreq.put_term (f : TermFreq) (t : String) (cnt : Nat) : TermFreq :=
  { term_count := f.term_count + cnt, terms := updTerms t cnt f.terms }

/-- TermFreq::tf, with f32 modelled as the reals. -/
noncomputable def TermFreq.tf (f : TermFreq) (t : String) : ℝ :=
  (((alookup t f.terms).getD 0 : Nat) : ℝ) / ((f.term_count : Nat) : ℝ)

structure PostingData : Type where
  doc_id : Nat
  positions : List Nat
deriving DecidableEq

structure PostingList : Type where
  postings : List PostingData
deriving DecidableEq

def PostingList.new : PostingList := { postings := [] }

def PostingList.push (pl : PostingList) (p : PostingData) : PostingList :=
  { postings := pl.postings ++ [p] }

structure PositionalIndex : Type where
  doc_count : Nat
  postings : List (String × PostingList)
  stored : List (Nat × Document)
  term_freq : List (Nat × TermFreq)
deriving DecidableEq

def PositionalIndex.new (doc_count : Nat) : PositionalIndex :=
  { doc_count := doc_count, postings := [], stored := [], term_freq := [] }

/-- postings.entry(term).or_insert(PostingList::new()).push(posting). -/
def updPostings (t : String) (p : PostingData) :
    List (String × PostingList) → List (String × PostingList)
  | [] => [(t, PostingList.new.push p)]
  | (t', pl) :: rest =>
    if t = t' then (t', pl.push p) :: rest else (t', pl) :: updPostings t p rest

def PositionalIndex.push_posting (idx : PositionalIndex) (t : String)
    (p : PostingData) : PositionalIndex :=
  { idx with postings := updPostings t p idx.postings }

/-- term_freq.entry(id).or_insert(TermFreq::new()).put_term(term, count). -/
def updTF (id : Nat) (t : String) (cnt : Nat) :
    List (Nat × TermFreq) → List (Nat × TermFreq)
  | [] => [(id, TermFreq.new.put_term t cnt)]
  | (id', f) :: rest =>
    if id = id' then (id', f.put_term t cnt) :: rest
    else (id', f) :: updTF id t cnt rest

def PositionalIndex.push_term_freq (idx : PositionalIndex) (id : Nat)
    (t : String) (cnt : Nat) : PositionalIndex :=
  { idx with term_freq := updTF id t cnt idx.term_freq }

/-- stored.insert(id, doc). -/
def updStored (id : Nat) (d : Document) :
    List (Nat × Document) → List (Nat × Document)
  | [] => [(id, d)]
  | (id', d') :: rest =>
    if id = id' then (id, d) :: rest else (id', d') :: updStored id d rest

def PositionalIndex.store_document (idx : PositionalIndex) (id : Nat)
    (d : Document) : PositionalIndex :=
  { idx with stored := updStored id d idx.stored }

def PositionalIndex.doc (idx : PositionalIndex) (id : Nat) : Option Document :=
  alookup id idx.stored

/-- The number of postings of a term, zero when the term is unknown. -/
def matchDocCount (idx : PositionalIndex) (t : String) : Nat :=
  match alookup t idx.postings with
  | none => 0
  | some pl => pl.postings.length

/-- PositionalIndex::idf, with f32 log2 modelled as Real.logb 2. -/
noncomputable def PositionalIndex.idf (idx : PositionalIndex) (t : String) : ℝ :=
  max (Real.logb 2 ((idx.doc_count : ℝ) / ((matchDocCount idx t + 1 : Nat) : ℝ))) 0

noncomputable def PositionalIndex.tf (idx : PositionalIndex) (doc_id : Nat)
    (t : String) : ℝ :=
  match alookup doc_id idx.term_freq with
  | none => 0
  | some f => f.tf t

structure TermDict : Type where
  term2idx : List (String × Nat)
  idx2term : List (Nat × String)
  len : Nat
deriving DecidableEq

def TermDict.new : TermDict := { term2idx := [], idx2term := [], len := 0 }

/-- TermDict::add_term; the mutation is returned as the new dictionary. -/
def TermDict.add_term (d : TermDict) (t : String) : TermDict × Nat :=
  match alookup t d.term2idx with
  | some i =>
    match alookup i d.idx2term with
    | some _ => (d, i)
    | none => ({ d with idx2term := (i, t) :: d.idx2term }, i)
  | none =>
    let i := d.len
    match alookup i d.idx2term with
    | some _ => ({ d with term2idx := (t, i) :: d.term2idx, len := d.len + 1 }, i)
    | none =>
      ({ d with term2idx := (t, i) :: d.term2idx,
                idx2term := (i, t) :: d.idx2term, len := d.len + 1 }, i)

def TermDict.term (d : TermDict) (idx : Nat) : Option String :=
  alookup idx d.idx2term

def TermDict.index (d : TermDict) (t : String) : Option Nat :=
  alookup t d.term2idx

structure IndexWriter : Type where
  seq : Nat
  term_dict : TermDict
  term_positions : List (Nat × Nat × List Nat)
  stored : List (Nat × Document)
deriving DecidableEq

def IndexWriter.new : IndexWriter :=
  { seq := 0, term_dict := TermDict.new, term_positions := [], stored := [] }

/-- data.entry(index).or_insert(Vec::new()).push(position). -/
def updData (k : Nat) (pos : Nat) : List (Nat × List Nat) → List (Nat × List Nat)
  | [] => [(k, [pos])]
  | (k', ps) :: rest =>
    if k = k' then (k', ps ++ [pos]) :: rest else (k', ps) :: updData k pos rest

/-- The token loop of IndexWriter::write: Term tokens get a dictionary id and
a recorded position, every other token kind is skipped. -/
def indexTokens : TermDict × List (Nat × List Nat) → List Token →
    TermDict × List (Nat × List Nat)
  | st, [] => st
  | st, tok :: toks =>
    match tok.kind with
    | TokenKind.Term t =>
      let r := st.1.add_term t
      indexTokens (r.1, updData r.2 tok.position st.2) toks
    | TokenKind.Punct _ => indexTokens st toks

def IndexWriter.write (w : IndexWriter) (d : Document) : IndexWriter :=
  let id := w.seq
  let st := indexTokens (w.term_dict, []) (tokenize d.body)
  { seq := id + 1,
    term_dict := st.1,
    term_positions := w.term_positions ++ st.2.map (fun e => (id, e.1, e.2)),
    stored := w.stored ++ [(id, d)] }

/-- One step of the build loop; the unwrap on the dictionary lookup is
modelled as Option.none on failure. -/
def buildStep (dict : TermDict) (idx : PositionalIndex)
    (tr : Nat × Nat × List Nat) : Option PositionalIndex :=
  match dict.term tr.2.1 with
  | none => none
  | some t =>
    some ((idx.push_term_freq tr.1 t tr.2.2.length).push_posting t
      { doc_id := tr.1, positions := tr.2.2 })

def buildAux (dict : TermDict) :
    PositionalIndex → List (Nat × Nat × List Nat) → Option PositionalIndex
  | idx, [] => some idx
  | idx, tr :: trs =>
    match buildStep dict idx tr with
    | none => none
    | some idx' => buildAux dict idx' trs

def IndexWriter.build (w : IndexWriter) : Option PositionalIndex :=
  (buildAux w.term_dict (PositionalIndex.new w.seq) w.term_positions).map
    (fun idx => w.stored.foldl (fun i e => i.store_document e.1 e.2) idx)

structure DocAndScore : Type where
  score : ℝ
  doc_id : Nat

def DocAndScore.new_with_score (doc_id : Nat) (score : ℝ) : DocAndScore :=
  { score := score, doc_id := doc_id }

/-- f32::EPSILON. -/
noncomputable def f32Epsilon : ℝ := (2 : ℝ) ^ (-23 : ℤ)

/-- DocAndScore::score_cmp of lib.rs. -/
noncomputable def DocAndScore.score_cmp (a b : DocAndScore) : Ordering :=
  if |a.score - b.score| ≤ f32Epsilon then Ordering.eq
  else if 0 < a.score - b.score then Ordering.gt
  else Ordering.lt

/-- The Ord instance of DocAndScore in lib.rs: score_cmp, then the doc_id
comparison reversed. -/
noncomputable def DocAndScore.ord_cmp (a b : DocAndScore) : Ordering :=
  (a.score_cmp b).then (compare a.doc_id b.doc_id).swap

/-- Stable insertion step for the model of Vec::sort. -/
def insertByCmp {α : Type} (cmp : α → α → Ordering) (a : α) : List α → List α
  | [] => [a]
  | b :: l =>
    if cmp a b = Ordering.gt then b :: insertByCmp cmp a l else a :: b :: l

/-- Stable sort by a three-way comparator, the model of Vec::sort. -/
def sortByCmp {α : Type} (cmp : α → α → Ordering) : List α → List α
  | [] => []
  | a :: l => insertByCmp cmp a (sortByCmp cmp l)

/-- lib.rs search_term. -/
noncomputable def search_term (idx : PositionalIndex) (t : String) : List Nat :=
  match alookup t idx.postings with
  | none => []
  | some pl =>
    let idf := idx.idf t
    let docs_scores := pl.postings.map
      (fun pd => DocAndScore.new_with_score pd.doc_id (idx.tf pd.doc_id t * idf))
    (sortByCmp DocAndScore.ord_cmp docs_scores).map (fun ds => ds.doc_id)

/-- Any sequence of write calls starting from a fresh writer. -/
def writeAll (docs : List Document) : IndexWriter :=
  docs.foldl IndexWriter.write IndexWriter.new

def buildFromDocs (docs : List Document) : Option PositionalIndex :=
  (writeAll docs).build

/-- Modelled from the spec: the multi-term intersection iterator of section
4.5 is not present under src (only the spec describes it).  Its state is one
cursor of remaining doc_ids per query term plus the shared candidate; an
absent candidate means the iterator is exhausted. -/
structure MultiTermIter : Type where
  cursors : List (List Nat)
  candidate : Option Nat
deriving DecidableEq

/-- Modelled from the spec: construction looks up each query term, and if
any term is absent from the index no document can match, so the iterator is
immediately exhausted; otherwise the candidate is seeded from the first
posting of the first opened list. -/
def MultiTermIter.new (idx : PositionalIndex) (terms : List String) :
    MultiTermIter :=
  let lists := terms.map (fun t => alookup t idx.postings)
  if lists.all Option.isSome then
    let cs := lists.map (fun o => (o.getD PostingList.new).postings.map PostingData.doc_id)
    match cs with
    | [] => { cursors := [], candidate := none }
    | c :: _ =>
      match c with
      | [] => { cursors := cs, candidate := none }
      | d :: _ => { cursors := cs, candidate := some d }
  else { cursors := [], candidate := none }

/-- Modelled from the spec: advance a cursor past every posting strictly
below the candidate (leapfrog step 1). -/
def advancePast (cand : Nat) : List Nat → List Nat
  | [] => []
  | d :: ds => if d < cand then advancePast cand ds else d :: ds

/-- Modelled from the spec: one request to the lazy iterator.  Step 1 skips
every cursor past entries below the candidate; step 2 declares exhaustion if
a cursor ran out, or leapfrogs the candidate to the first differing head;
step 3 emits a match when every head equals the candidate.  The fuel bounds
the leapfrog restarts, which the spec argues always terminate. -/
def MultiTermIter.next : Nat → MultiTermIter → Option (Nat × MultiTermIter)
  | 0, _ => none
  | fuel + 1, it =>
    match it.candidate with
    | none => none
    | some cand =>
      let cs := it.cursors.map (advancePast cand)
      if cs.any List.isEmpty then none
      else
        match (cs.map (fun c => c.headD 0)).find? (fun h => h ≠ cand) with
        | some h =>
          MultiTermIter.next fuel { cursors := cs, candidate := some h }
        | none => some (cand, { cursors := cs, candidate := some (cand + 1) })

/-- Modelled from the spec: the full (finite) sequence the lazy iterator
produces, one matching doc_id per request. -/
def MultiTermIter.toList : Nat → MultiTermIter → List Nat
  | 0, _ => []
  | fuel + 1, it =>
    match it.next (fuel + 1) with
    | none => []
    | some (d, it') => d :: it'.toList fuel

/-- The corpus of the tfidf tests in lib.rs. -/
def docs3 : List Document :=
  [{ body := "dog dog dog monkey bird" },
   { body := "dog cat cat fox" },
   { body := "dog raccoon fox" }]

/-- The corpus of the indexing test in lib.rs. -/
def docsI : List Document :=
  [{ body := "What is this" },
   { body := "I am Taisuke" },
   { body := "that that is is that that is not is not is that it it is" }]

def idx3 : PositionalIndex := (buildFromDocs docs3).getD (PositionalIndex.new 0)

def idxI : PositionalIndex := (buildFromDocs docsI).getD (PositionalIndex.new 0)

def idx9 : PositionalIndex :=
  (buildFromDocs [{ body := "? hi" }]).getD (PositionalIndex.new 0)

/-- Whether a token carries the Term kind. -/
def Token.isTermTok (tok : Token) : Bool :=
  match tok.kind with
  | TokenKind.Term _ => true
  | TokenKind.Punct _ => false

/-- The number of Term tokens with the given string in a token sequence:
the occurrences of the term in the tokenized document. -/
def occurrencesOf (t : String) (toks : List Token) : Nat :=
  toks.countP (fun tok => decide (tok.kind = TokenKind.Term t))

/-- The number of Term tokens in a token sequence: the total term count of
the tokenized document. -/
def numTermToks (toks : List Token) : Nat :=
  toks.countP Token.isTermTok

/-- Total number of recorded positions in a per-document data map. -/
def sumLens (data : List (Nat × List Nat)) : Nat :=
  (data.map (fun e => e.2.length)).sum

/-- Occurrence count of a term as seen through a dictionary and a
per-document data map. -/
def countData (dict : TermDict) (data : List (Nat × List Nat)) (t : String) : Nat :=
  match alookup t dict.term2idx with
  | none => 0
  | some i => ((alookup i data).getD []).length

/-- The slice of the accumulated triples belonging to one document. -/
def docTrs (d : Nat) (trs : List (Nat × Nat × List Nat)) : List (Nat × List Nat) :=
  trs.filterMap (fun tr => if tr.1 = d then some (tr.2.1, tr.2.2) else none)

/-- The postings one term receives from the accumulated triples, in order. -/
def trsFor (dict : TermDict) (t : String) (trs : List (Nat × Nat × List Nat)) :
    List PostingData :=
  trs.filterMap (fun tr =>
    if alookup tr.2.1 dict.idx2term = some t then
      some { doc_id := tr.1, positions := tr.2.2 }
    else none)

/-- Folding put_term over the entries of one document block, as the build
loop does for the term-frequency table. -/
def foldPut (dict : TermDict) (f : TermFreq) (entries : List (Nat × List Nat)) :
    TermFreq :=
  entries.foldl (fun acc e =>
    match alookup e.1 dict.idx2term with
    | some t => acc.put_term t e.2.length
    | none => acc) f

/-- The posting sequence of a term in an index, empty when absent. -/
def postingsAt (t : String) (idx : PositionalIndex) : List PostingData :=
  ((alookup t idx.postings).getD PostingList.new).postings

/-- The term-dictionary invariant: the two mappings are mutually inverse,
all ids are below len, and every id below len is assigned. -/
structure DictInv (d : TermDict) : Prop where
  t2i_i2t : ∀ t i, alookup t d.term2idx = some i → alookup i d.idx2term = some t
  i2t_t2i : ∀ i t, alookup i d.idx2term = some t → alookup t d.term2idx = some i
  t2i_keys : ∀ e ∈ d.term2idx, e.2 < d.len
  i2t_keys : ∀ e ∈ d.idx2term, e.1 < d.len
  i2t_total : ∀ i, i < d.len → ∃ t, alookup i d.idx2term = some t

/-- Dictionary growth: every established mapping is preserved. -/
def DictLe (d d' : TermDict) : Prop :=
  (∀ t i, alookup t d.term2idx = some i → alookup t d'.term2idx = some i) ∧
  (∀ i t, alookup i d.idx2term = some t → alookup i d'.idx2term = some t)

/-- Invariant of the per-document data map while scanning tokens. -/
def DataOk (dict : TermDict) (data : List (Nat × List Nat)) : Prop :=
  (data.map Prod.fst).Nodup ∧
  ∀ e ∈ data, e.1 < dict.len ∧ (∃ t, alookup e.1 dict.idx2term = some t) ∧ e.2 ≠ []

/-- What one finished document block records, relative to a dictionary. -/
structure BlockOk (dict : TermDict) (toks : List Token)
    (data : List (Nat × List Nat)) : Prop where
  nodupKeys : (data.map Prod.fst).Nodup
  entryOf : ∀ e ∈ data, ∃ t, alookup e.1 dict.idx2term = some t ∧
    e.2.length = occurrencesOf t toks ∧ e.2 ≠ []
  covers : ∀ t, occurrencesOf t toks ≠ 0 →
    ∃ e ∈ data, alookup e.1 dict.idx2term = some t
  total_eq : sumLens data = numTermToks toks

/-- The writer invariant after any sequence of writes from a fresh writer. -/
structure WAInv (docs : List Document) (w : IndexWriter) : Prop where
  seq_eq : w.seq = docs.length
  dinv : DictInv w.term_dict
  tp_doc_lt : ∀ tr ∈ w.term_positions, tr.1 < w.seq
  tp_mapped : ∀ tr ∈ w.term_positions,
    ∃ t, alookup tr.2.1 w.term_dict.idx2term = some t
  tp_nonempty : ∀ tr ∈ w.term_positions, tr.2.2 ≠ []
  tp_pairwise : List.Pairwise
    (fun a b => a.1 < b.1 ∨ (a.1 = b.1 ∧ a.2.1 ≠ b.2.1)) w.term_positions
  blocks : ∀ d dc, docs[d]? = some dc →
    BlockOk w.term_dict (tokenize dc.body) (docTrs d w.term_positions)
  blocks_none : ∀ d, docs[d]? = none → docTrs d w.term_positions = []

/-- Any sequence of add_term calls starting from a fresh dictionary. -/
def addAll (ts : List String) : TermDict :=
  ts.foldl (fun d t => (d.add_term t).1) TermDict.new

/-! ### Association-list lemmas -/

theorem alookup_nil {α β : Type} [DecidableEq α] (k : α) :
    alookup k ([] : List (α × β)) = none := rfl

theorem alookup_cons {α β : Type} [DecidableEq α] (k a : α) (b : β)
    (l : List (α × β)) :
    alookup k ((a, b) :: l) = if k = a then some b else alookup k l := rfl

theorem alookup_mem {α β : Type} [DecidableEq α] {k : α} {v : β} :
    ∀ {l : List (α × β)}, alookup k l = some v → (k, v) ∈ l
  | [], h => by simp [alookup] at h
  | (a, b) :: l, h => by
    rw [alookup_cons] at h
    by_cases hk : k = a
    · rw [if_pos hk] at h
      cases h
      subst hk
      exact List.mem_cons_self _ _
    · rw [if_neg hk] at h
      exact List.mem_cons_of_mem _ (alookup_mem h)

theorem alookup_of_mem_nodup {α β : Type} [DecidableEq α] {k : α} {v : β} :
    ∀ {l : List (α × β)}, (k, v) ∈ l → (l.map Prod.fst).Nodup →
      alookup k l = some v
  | [], h, _ => by simp at h
  | (a, b) :: l, h, hn => by
    rw [List.map_cons, List.nodup_cons] at hn
    rcases List.mem_cons.1 h with hm | hm
    · rw [Prod.mk.injEq] at hm
      rw [alookup_cons, if_pos hm.1, hm.2]
    · have hka : k ≠ a := by
        rintro rfl
        exact hn.1 (List.mem_map.2 ⟨(k, v), hm, rfl⟩)
      rw [alookup_cons, if_neg hka]
      exact alookup_of_mem_nodup hm hn.2

theorem alookup_none_of_lt {β : Type} {n : Nat} {l : List (Nat × β)}
    (h : ∀ e ∈ l, e.1 < n) : alookup n l = none := by
  cases hl : alookup n l with
  | none => rfl
  | some v =>
    have := h _ (alookup_mem hl)
    omega

/-! ### updData lemmas -/

theorem updData_self (k : Nat) (pos : Nat) :
    ∀ l, alookup k (updData k pos l) = some (((alookup k l).getD []) ++ [pos])
  | [] => by simp [updData, alookup]
  | (a, b) :: l => by
    by_cases hk : k = a
    · subst hk
      simp [updData, alookup_cons]
    · simp only [updData, if_neg hk, alookup_cons, if_neg hk]
      exact updData_self k pos l

theorem updData_other {j k : Nat} (hjk : j ≠ k) (pos : Nat) :
    ∀ l, alookup j (updData k pos l) = alookup j l
  | [] => by simp [updData, alookup, hjk]
  | (a, b) :: l => by
    by_cases hk : k = a
    · subst hk
      simp [updData, alookup_cons, hjk]
    · simp only [updData, if_neg hk, alookup_cons]
      by_cases hj : j = a
      · rw [if_pos hj, if_pos hj]
      · rw [if_neg hj, if_neg hj]
        exact updData_other hjk pos l

theorem updData_keys_mem {k : Nat} (pos : Nat) :
    ∀ {l}, k ∈ l.map Prod.fst →
      (updData k pos l).map Prod.fst = l.map Prod.fst
  | [], h => by simp at h
  | (a, b) :: l, h => by
    by_cases hk : k = a
    · subst hk
      simp [updData]
    · rw [List.map_cons, List.mem_cons] at h
      rcases h with h | h
      · exact absurd h hk
      · simp only [updData, if_neg hk, List.map_cons, updData_keys_mem pos h]

theorem updData_keys_fresh {k : Nat} (pos : Nat) :
    ∀ {l}, k ∉ l.map Prod.fst →
      (updData k pos l).map Prod.fst = l.map Prod.fst ++ [k]
  | [], _ => by simp [updData]
  | (a, b) :: l, h => by
    rw [List.map_cons] at h
    have hk : k ≠ a := fun hka => h (hka ▸ List.mem_cons_self a _)
    have ht : k ∉ l.map Prod.fst := fun hx => h (List.mem_cons_of_mem _ hx)
    simp only [updData, if_neg hk, List.map_cons, updData_keys_fresh pos ht,
      List.cons_append]

theorem updData_keys_nodup {k : Nat} (pos : Nat) {l : List (Nat × List Nat)}
    (h : (l.map Prod.fst).Nodup) : ((updData k pos l).map Prod.fst).Nodup := by
  by_cases hm : k ∈ l.map Prod.fst
  · rw [updData_keys_mem pos hm]; exact h
  · rw [updData_keys_fresh pos hm]
    rw [List.nodup_append]
    refine ⟨h, List.nodup_singleton _, fun x hx hxk => ?_⟩
    rw [List.mem_singleton] at hxk
    subst hxk
    exact hm hx

theorem updData_mem_key {k : Nat} (pos : Nat) :
    ∀ {l} {e : Nat × List Nat}, e ∈ updData k pos l →
      e.1 = k ∨ e.1 ∈ l.map Prod.fst
  | [], e, h => by
    simp [updData] at h
    subst h
    left; rfl
  | (a, b) :: l, e, h => by
    by_cases hk : k = a
    · subst hk
      rw [show updData k pos ((k, b) :: l) = (k, b ++ [pos]) :: l by simp [updData]] at h
      rcases List.mem_cons.1 h with h1 | h1
      · rw [h1]; left; rfl
      · right
        rw [List.map_cons]
        exact List.mem_cons_of_mem _ (List.mem_map.2 ⟨e, h1, rfl⟩)
    · simp only [updData, if_neg hk, List.mem_cons] at h
      rcases h with rfl | h
      · right
        rw [List.map_cons]
        exact List.mem_cons_self _ _
      · rcases updData_mem_key pos h with h' | h'
        · left; exact h'
        · right
          rw [List.map_cons]
          exact List.mem_cons_of_mem _ h'

theorem updData_mem_val {k : Nat} (pos : Nat) :
    ∀ {l} {e : Nat × List Nat}, e ∈ updData k pos l →
      (∀ e' ∈ l, e'.2 ≠ []) → e.2 ≠ []
  | [], e, h, _ => by
    simp [updData] at h
    subst h
    simp
  | (a, b) :: l, e, h, hne => by
    by_cases hk : k = a
    · subst hk
      rw [show updData k pos ((k, b) :: l) = (k, b ++ [pos]) :: l by simp [updData]] at h
      rcases List.mem_cons.1 h with h1 | h1
      · rw [h1]; simp
      · exact hne _ (List.mem_cons_of_mem _ h1)
    · simp only [updData, if_neg hk, List.mem_cons] at h
      rcases h with rfl | h
      · exact hne _ (List.mem_cons_self _ _)
      · exact updData_mem_val pos h (fun e' he' => hne _ (List.mem_cons_of_mem _ he'))

theorem updData_sumLens (k : Nat) (pos : Nat) :
    ∀ l, sumLens (updData k pos l) = sumLens l + 1
  | [] => by simp [updData, sumLens]
  | (a, b) :: l => by
    by_cases hk : k = a
    · subst hk
      simp [updData, sumLens]
      omega
    · have := updData_sumLens k pos l
      simp only [updData, if_neg hk, sumLens, List.map_cons, List.sum_cons] at *
      omega

/-! ### Dictionary lemmas -/

theorem DictInv.t2i_lt {d : TermDict} (hd : DictInv d) :
    ∀ t i, alookup t d.term2idx = some i → i < d.len :=
  fun _ _ h => hd.t2i_keys _ (alookup_mem h)

theorem DictInv.i2t_lt {d : TermDict} (hd : DictInv d) :
    ∀ i t, alookup i d.idx2term = some t → i < d.len :=
  fun _ _ h => hd.i2t_keys _ (alookup_mem h)

theorem dictInv_new : DictInv TermDict.new := by
  constructor <;> simp [TermDict.new, alookup]

theorem dictLe_refl (d : TermDict) : DictLe d d :=
  ⟨fun _ _ h => h, fun _ _ h => h⟩

theorem dictLe_trans {a b c : TermDict} (h1 : DictLe a b) (h2 : DictLe b c) :
    DictLe a c :=
  ⟨fun t i h => h2.1 t i (h1.1 t i h), fun i t h => h2.2 i t (h1.2 i t h)⟩

theorem i2t_none_of_len {d : TermDict} (hd : DictInv d) :
    alookup d.len d.idx2term = none :=
  alookup_none_of_lt hd.i2t_keys

theorem dictInv_extend {d : TermDict} (hd : DictInv d) (t : String)
    (h1 : alookup t d.term2idx = none) :
    DictInv { term2idx := (t, d.len) :: d.term2idx,
              idx2term := (d.len, t) :: d.idx2term, len := d.len + 1 } := by
  constructor
  · intro u i h
    dsimp only at h ⊢
    rw [alookup_cons] at h
    by_cases hu : u = t
    · rw [if_pos hu] at h
      cases h
      rw [alookup_cons, if_pos rfl, hu]
    · rw [if_neg hu] at h
      have hi : i < d.len := hd.t2i_lt u i h
      rw [alookup_cons, if_neg (Nat.ne_of_lt hi)]
      exact hd.t2i_i2t u i h
  · intro i u h
    dsimp only at h ⊢
    rw [alookup_cons] at h
    by_cases hi : i = d.len
    · rw [if_pos hi] at h
      cases h
      rw [alookup_cons, if_pos rfl, hi]
    · rw [if_neg hi] at h
      have hu : u ≠ t := by
        rintro rfl
        rw [hd.i2t_t2i i u h] at h1
        cases h1
      rw [alookup_cons, if_neg hu]
      exact hd.i2t_t2i i u h
  · intro e he
    dsimp only at he ⊢
    rcases List.mem_cons.1 he with he | he
    · rw [he]; exact Nat.lt_succ_self _
    · exact Nat.lt_succ_of_lt (hd.t2i_keys e he)
  · intro e he
    dsimp only at he ⊢
    rcases List.mem_cons.1 he with he | he
    · rw [he]; exact Nat.lt_succ_self _
    · exact Nat.lt_succ_of_lt (hd.i2t_keys e he)
  · intro i hi
    dsimp only at hi ⊢
    by_cases h : i = d.len
    · exact ⟨t, by rw [alookup_cons, if_pos h]⟩
    · obtain ⟨u, hu⟩ := hd.i2t_total i (by omega)
      exact ⟨u, by rw [alookup_cons, if_neg h]; exact hu⟩

theorem add_term_spec (d : TermDict) (t : String) (hd : DictInv d) :
    DictInv (d.add_term t).1 ∧ DictLe d (d.add_term t).1 ∧
    alookup t (d.add_term t).1.term2idx = some (d.add_term t).2 ∧
    alookup (d.add_term t).2 (d.add_term t).1.idx2term = some t ∧
    (d.add_term t).2 < (d.add_term t).1.len ∧ d.len ≤ (d.add_term t).1.len := by
  cases h1 : alookup t d.term2idx with
  | some i =>
    have h2 : alookup i d.idx2term = some t := hd.t2i_i2t t i h1
    have hr : d.add_term t = (d, i) := by
      simp [TermDict.add_term, h1, h2]
    rw [hr]
    exact ⟨hd, dictLe_refl d, h1, h2, hd.t2i_lt t i h1, Nat.le_refl _⟩
  | none =>
    have h2 : alookup d.len d.idx2term = none := i2t_none_of_len hd
    have hr : d.add_term t =
        ({ term2idx := (t, d.len) :: d.term2idx,
           idx2term := (d.len, t) :: d.idx2term, len := d.len + 1 }, d.len) := by
      simp [TermDict.add_term, h1, h2]
    rw [hr]
    refine ⟨dictInv_extend hd t h1, ⟨?_, ?_⟩, ?_, ?_, ?_, ?_⟩
    · intro u i h
      have hu : u ≠ t := by
        rintro rfl
        rw [h] at h1
        cases h1
      dsimp only
      rw [alookup_cons, if_neg hu]
      exact h
    · intro i u h
      have hi : i ≠ d.len := by
        intro hi
        rw [hi, h2] at h
        cases h
      dsimp only
      rw [alookup_cons, if_neg hi]
      exact h
    · dsimp only
      rw [alookup_cons, if_pos rfl]
    · dsimp only
      rw [alookup_cons, if_pos rfl]
    · exact Nat.lt_succ_self _
    · exact Nat.le_succ _

theorem addAll_aux (ts : List String) : ∀ d, DictInv d →
    DictInv (ts.foldl (fun d t => (d.add_term t).1) d) ∧
    DictLe d (ts.foldl (fun d t => (d.add_term t).1) d) ∧
    ∀ t ∈ ts,
      ∃ i, alookup t (ts.foldl (fun d t => (d.add_term t).1) d).term2idx = some i := by
  induction ts with
  | nil =>
    intro d hd
    exact ⟨hd, dictLe_refl d, by simp⟩
  | cons u ts ih =>
    intro d hd
    have spec := add_term_spec d u hd
    obtain ⟨hfin, hle, hmem⟩ := ih (d.add_term u).1 spec.1
    rw [List.foldl_cons]
    refine ⟨hfin, dictLe_trans spec.2.1 hle, ?_⟩
    intro t ht
    rcases List.mem_cons.1 ht with rfl | ht
    · exact ⟨(d.add_term t).2, hle.1 _ _ spec.2.2.1⟩
    · exact hmem t ht

theorem add_term_known {d : TermDict} {t : String} {i : Nat} (hd : DictInv d)
    (h : alookup t d.term2idx = some i) : d.add_term t = (d, i) := by
  have h2 : alookup i d.idx2term = some t := hd.t2i_i2t t i h
  simp [TermDict.add_term, h, h2]

theorem add_term_fresh {d : TermDict} {t : String} (hd : DictInv d)
    (h : alookup t d.term2idx = none) :
    d.add_term t =
      ({ term2idx := (t, d.len) :: d.term2idx,
         idx2term := (d.len, t) :: d.idx2term, len := d.len + 1 }, d.len) := by
  simp [TermDict.add_term, h, i2t_none_of_len hd]

theorem countData_empty (dict : TermDict) (t : String) :
    countData dict [] t = 0 := by
  unfold countData
  cases alookup t dict.term2idx <;> simp [alookup]

theorem occurrencesOf_cons (t : String) (tok : Token) (toks : List Token) :
    occurrencesOf t (tok :: toks) =
      occurrencesOf t toks + (if tok.kind = TokenKind.Term t then 1 else 0) := by
  simp [occurrencesOf, List.countP_cons]

theorem numTermToks_cons (tok : Token) (toks : List Token) :
    numTermToks (tok :: toks) =
      numTermToks toks + (if tok.isTermTok then 1 else 0) := by
  simp [numTermToks, List.countP_cons]

theorem indexTokens_spec :
    ∀ (toks : List Token) (dict : TermDict) (data : List (Nat × List Nat)),
    DictInv dict → DataOk dict data →
    DictInv (indexTokens (dict, data) toks).1 ∧
    DataOk (indexTokens (dict, data) toks).1 (indexTokens (dict, data) toks).2 ∧
    DictLe dict (indexTokens (dict, data) toks).1 ∧
    (∀ t, countData (indexTokens (dict, data) toks).1
        (indexTokens (dict, data) toks).2 t
      = countData dict data t + occurrencesOf t toks) ∧
    sumLens (indexTokens (dict, data) toks).2 = sumLens data + numTermToks toks := by
  intro toks
  induction toks with
  | nil =>
    intro dict data hdict hdata
    refine ⟨hdict, hdata, dictLe_refl dict, ?_, ?_⟩
    · intro t
      simp [indexTokens, occurrencesOf]
    · simp [indexTokens, numTermToks]
  | cons tok toks ih =>
    intro dict data hdict hdata
    cases hk : tok.kind with
    | Punct p =>
      have hred : indexTokens (dict, data) (tok :: toks) =
          indexTokens (dict, data) toks := by
        simp [indexTokens, hk]
      rw [hred]
      obtain ⟨a, b, c, dd, e⟩ := ih dict data hdict hdata
      refine ⟨a, b, c, ?_, ?_⟩
      · intro t
        rw [dd t, occurrencesOf_cons, hk]
        simp
      · rw [e, numTermToks_cons]
        simp [Token.isTermTok, hk]
    | Term u =>
      have spec := add_term_spec dict u hdict
      obtain ⟨hd1, hle1, hu1, hu2, hulen, hlen⟩ := spec
      have hred : indexTokens (dict, data) (tok :: toks) =
          indexTokens ((dict.add_term u).1,
            updData (dict.add_term u).2 tok.position data) toks := by
        simp [indexTokens, hk]
      rw [hred]
      have hdata1 : DataOk (dict.add_term u).1
          (updData (dict.add_term u).2 tok.position data) := by
        refine ⟨updData_keys_nodup _ hdata.1, ?_⟩
        intro e he
        rcases updData_mem_key _ he with hek | hek
        · refine ⟨hek ▸ hulen, ⟨u, hek ▸ hu2⟩, updData_mem_val _ he ?_⟩
          exact fun e' he' => (hdata.2 e' he').2.2
        · obtain ⟨e', he', hfst⟩ := List.mem_map.1 hek
          obtain ⟨hlt, ⟨t', ht'⟩, _⟩ := hdata.2 e' he'
          refine ⟨?_, ⟨t', ?_⟩, updData_mem_val _ he ?_⟩
          · omega
          · rw [← hfst]
            exact hle1.2 _ _ ht'
          · exact fun e'' he'' => (hdata.2 e'' he'').2.2
      obtain ⟨a, b, c, dd, e⟩ :=
        ih (dict.add_term u).1 (updData (dict.add_term u).2 tok.position data)
          hd1 hdata1
      have hstep : ∀ t, countData (dict.add_term u).1
          (updData (dict.add_term u).2 tok.position data) t
          = countData dict data t + (if u = t then 1 else 0) := by
        intro t
        by_cases hut : u = t
        · subst hut
          cases h1 : alookup u dict.term2idx with
          | some i =>
            rw [add_term_known hdict h1] at *
            simp only [countData, h1, updData_self]
            simp
          | none =>
            rw [add_term_fresh hdict h1] at *
            have hnd : alookup dict.len data = none := by
              apply alookup_none_of_lt
              exact fun e he => (hdata.2 e he).1
            simp only [countData, h1]
            simp [alookup_cons, updData_self, hnd]
        · cases h2 : alookup t dict.term2idx with
          | none =>
            have hnew : alookup t (dict.add_term u).1.term2idx = none := by
              cases h1 : alookup u dict.term2idx with
              | some i =>
                rw [add_term_known hdict h1]
                exact h2
              | none =>
                rw [add_term_fresh hdict h1]
                have htu : ¬t = u := fun hh => hut hh.symm
                rw [alookup_cons, if_neg htu]
                exact h2
            simp only [countData, h2, hnew]
            simp [hut]
          | some j =>
            have hnew : alookup t (dict.add_term u).1.term2idx = some j := by
              cases h1 : alookup u dict.term2idx with
              | some i =>
                rw [add_term_known hdict h1]
                exact h2
              | none =>
                rw [add_term_fresh hdict h1]
                have htu : ¬t = u := fun hh => hut hh.symm
                rw [alookup_cons, if_neg htu]
                exact h2
            have hj : j ≠ (dict.add_term u).2 := by
              cases h1 : alookup u dict.term2idx with
              | some i =>
                rw [add_term_known hdict h1]
                intro hji
                have hti := hdict.t2i_i2t t j h2
                have hui := hdict.t2i_i2t u i h1
                rw [hji] at hti
                rw [hti] at hui
                cases hui
                exact hut rfl
              | none =>
                rw [add_term_fresh hdict h1]
                have := hdict.t2i_lt t j h2
                omega
            simp only [countData, h2, hnew, updData_other hj]
            simp [hut]
      refine ⟨a, b, dictLe_trans hle1 c, ?_, ?_⟩
      · intro t
        rw [dd t, hstep t, occurrencesOf_cons, hk]
        simp only [TokenKind.Term.injEq]
        by_cases hut : u = t
        · simp [hut]
          omega
        · have htu : ¬t = u := fun hh => hut hh.symm
          simp [hut, htu]
      · rw [e, updData_sumLens, numTermToks_cons]
        simp [Token.isTermTok, hk]
        omega

/-! ### Writer invariant -/

theorem docTrs_append (d : Nat) (l l' : List (Nat × Nat × List Nat)) :
    docTrs d (l ++ l') = docTrs d l ++ docTrs d l' := by
  simp [docTrs, List.filterMap_append]

theorem docTrs_map_self (d : Nat) (data : List (Nat × List Nat)) :
    docTrs d (data.map (fun e => (d, e.1, e.2))) = data := by
  induction data with
  | nil => rfl
  | cons e es ih =>
    simp only [List.map_cons, docTrs, List.filterMap_cons, if_true] at *
    simpa using ih

theorem docTrs_map_other {d id : Nat} (hne : id ≠ d) (data : List (Nat × List Nat)) :
    docTrs d (data.map (fun e => (id, e.1, e.2))) = [] := by
  induction data with
  | nil => rfl
  | cons e es ih =>
    simp only [List.map_cons, docTrs, List.filterMap_cons] at *
    rw [if_neg hne]
    exact ih

theorem blockOk_mono {dict dict' : TermDict} {toks : List Token}
    {data : List (Nat × List Nat)} (hle : DictLe dict dict')
    (h : BlockOk dict toks data) : BlockOk dict' toks data := by
  constructor
  · exact h.nodupKeys
  · intro e he
    obtain ⟨t, ht, hlen, hne⟩ := h.entryOf e he
    exact ⟨t, hle.2 _ _ ht, hlen, hne⟩
  · intro t hocc
    obtain ⟨e, he, ht⟩ := h.covers t hocc
    exact ⟨e, he, hle.2 _ _ ht⟩
  · exact h.total_eq

theorem blockOk_of_indexTokens (dict : TermDict) (toks : List Token)
    (hd : DictInv dict) :
    BlockOk (indexTokens (dict, []) toks).1 toks (indexTokens (dict, []) toks).2 := by
  obtain ⟨a, b, c, dd, e⟩ :=
    indexTokens_spec toks dict [] hd ⟨by simp, by simp⟩
  constructor
  · exact b.1
  · intro ent hent
    obtain ⟨hlt, ⟨t, ht⟩, hne⟩ := b.2 ent hent
    refine ⟨t, ht, ?_, hne⟩
    have h2i : alookup t (indexTokens (dict, []) toks).1.term2idx = some ent.1 :=
      a.i2t_t2i _ _ ht
    have hct := dd t
    rw [countData_empty] at hct
    have hpe : alookup ent.1 (indexTokens (dict, []) toks).2 = some ent.2 :=
      alookup_of_mem_nodup (Prod.mk.eta ▸ hent) b.1
    simp only [countData, h2i, hpe] at hct
    simpa using hct
  · intro t hocc
    have hct := dd t
    rw [countData_empty, Nat.zero_add] at hct
    cases hl : alookup t (indexTokens (dict, []) toks).1.term2idx with
    | none =>
      simp only [countData, hl] at hct
      exact absurd hct.symm hocc
    | some i =>
      simp only [countData, hl] at hct
      cases hpd : alookup i (indexTokens (dict, []) toks).2 with
      | none =>
        rw [hpd] at hct
        simp at hct
        exact absurd hct.symm hocc
      | some ps =>
        exact ⟨(i, ps), alookup_mem hpd, a.t2i_i2t t i hl⟩
  · rw [e]
    simp [sumLens]

theorem write_eq (w : IndexWriter) (dc : Document) :
    w.write dc =
      { seq := w.seq + 1,
        term_dict := (indexTokens (w.term_dict, []) (tokenize dc.body)).1,
        term_positions := w.term_positions ++
          (indexTokens (w.term_dict, []) (tokenize dc.body)).2.map
            (fun e => (w.seq, e.1, e.2)),
        stored := w.stored ++ [(w.seq, dc)] } := rfl

theorem writeAll_snoc (docs : List Document) (dc : Document) :
    writeAll (docs ++ [dc]) = (writeAll docs).write dc := by
  simp [writeAll, List.foldl_append]

theorem WAInv_new : WAInv [] IndexWriter.new := by
  constructor <;> simp [IndexWriter.new, docTrs, TermDict.new]
  · exact dictInv_new

theorem WAInv_step {docs : List Document} {w : IndexWriter} (hw : WAInv docs w)
    (dc : Document) : WAInv (docs ++ [dc]) (w.write dc) := by
  have hok : DataOk w.term_dict [] := ⟨by simp, by simp⟩
  obtain ⟨ha, hb, hc, hdd, he⟩ :=
    indexTokens_spec (tokenize dc.body) w.term_dict [] hw.dinv hok
  have hblock := blockOk_of_indexTokens w.term_dict (tokenize dc.body) hw.dinv
  rw [write_eq]
  constructor
  · dsimp only
    rw [hw.seq_eq]
    simp
  · exact ha
  · intro tr htr
    dsimp only at htr ⊢
    rcases List.mem_append.1 htr with htr | htr
    · have := hw.tp_doc_lt tr htr
      omega
    · obtain ⟨e, _, rfl⟩ := List.mem_map.1 htr
      exact Nat.lt_succ_self _
  · intro tr htr
    dsimp only at htr ⊢
    rcases List.mem_append.1 htr with htr | htr
    · obtain ⟨t, ht⟩ := hw.tp_mapped tr htr
      exact ⟨t, hc.2 _ _ ht⟩
    · obtain ⟨e, he, rfl⟩ := List.mem_map.1 htr
      obtain ⟨_, ⟨t, ht⟩, _⟩ := hb.2 e he
      exact ⟨t, ht⟩
  · intro tr htr
    dsimp only at htr ⊢
    rcases List.mem_append.1 htr with htr | htr
    · exact hw.tp_nonempty tr htr
    · obtain ⟨e, he, rfl⟩ := List.mem_map.1 htr
      exact (hb.2 e he).2.2
  · dsimp only
    rw [List.pairwise_append]
    refine ⟨hw.tp_pairwise, ?_, ?_⟩
    · rw [List.pairwise_map]
      have hnd : List.Pairwise (fun a b : Nat × List Nat => a.1 ≠ b.1)
          (indexTokens (w.term_dict, []) (tokenize dc.body)).2 := by
        have := hb.1
        rw [List.Nodup, List.pairwise_map] at this
        exact this
      exact hnd.imp (fun h => Or.inr ⟨rfl, h⟩)
    · intro a hamem b hbmem
      obtain ⟨e, _, rfl⟩ := List.mem_map.1 hbmem
      exact Or.inl (hw.tp_doc_lt a hamem)
  · intro d dc' hd
    dsimp only
    rw [docTrs_append]
    by_cases hlt : d < docs.length
    · rw [List.getElem?_append_left hlt] at hd
      rw [docTrs_map_other (by rw [hw.seq_eq]; omega : w.seq ≠ d)]
      rw [List.append_nil]
      exact blockOk_mono hc (hw.blocks d dc' hd)
    · have hdlt : d < (docs ++ [dc]).length := by
        by_contra hx
        rw [List.getElem?_eq_none (by omega)] at hd
        cases hd
      have hdl : d = docs.length := by
        simp only [List.length_append, List.length_singleton] at hdlt
        omega
      subst hdl
      have hdcc : dc' = dc := by
        rw [List.getElem?_concat_length] at hd
        cases hd
        rfl
      subst hdcc
      rw [hw.blocks_none _ (List.getElem?_eq_none (Nat.le_refl _))]
      rw [← hw.seq_eq, docTrs_map_self]
      rw [List.nil_append]
      exact hblock
  · intro d hd
    dsimp only
    have hlen : docs.length + 1 ≤ d := by
      by_contra hx
      have hdlt : d < (docs ++ [dc]).length := by
        simp only [List.length_append, List.length_singleton]
        omega
      rw [List.getElem?_eq_getElem hdlt] at hd
      cases hd
    rw [docTrs_append]
    rw [hw.blocks_none _ (List.getElem?_eq_none (by omega))]
    rw [docTrs_map_other (by rw [hw.seq_eq]; omega : w.seq ≠ d)]
    rfl

theorem WAInv_writeAll (docs : List Document) : WAInv docs (writeAll docs) := by
  induction docs using List.reverseRecOn with
  | nil => exact WAInv_new
  | append_singleton docs dc ih =>
    rw [writeAll_snoc]
    exact WAInv_step ih dc

/-! ### Build lemmas -/

theorem updPostings_self (t : String) (p : PostingData) :
    ∀ l, alookup t (updPostings t p l) =
      some { postings := ((alookup t l).getD PostingList.new).postings ++ [p] }
  | [] => by simp [updPostings, alookup, PostingList.new, PostingList.push]
  | (a, b) :: l => by
    by_cases ht : t = a
    · subst ht
      simp [updPostings, alookup_cons, PostingList.push]
    · simp only [updPostings, if_neg ht, alookup_cons, if_neg ht]
      exact updPostings_self t p l

theorem updPostings_other {u t : String} (hut : u ≠ t) (p : PostingData) :
    ∀ l, alookup u (updPostings t p l) = alookup u l
  | [] => by simp [updPostings, alookup, hut]
  | (a, b) :: l => by
    by_cases ht : t = a
    · subst ht
      simp only [updPostings, if_pos rfl, if_true, alookup_cons, if_neg hut]
    · simp only [updPostings, if_neg ht, alookup_cons]
      by_cases hu : u = a
      · rw [if_pos hu, if_pos hu]
      · rw [if_neg hu, if_neg hu]
        exact updPostings_other hut p l

theorem updTF_self (d : Nat) (t : String) (cnt : Nat) :
    ∀ l, alookup d (updTF d t cnt l) =
      some (((alookup d l).getD TermFreq.new).put_term t cnt)
  | [] => by simp [updTF, alookup]
  | (a, b) :: l => by
    by_cases hd : d = a
    · subst hd
      simp [updTF, alookup_cons]
    · simp only [updTF, if_neg hd, alookup_cons, if_neg hd]
      exact updTF_self d t cnt l

theorem updTF_other {j d : Nat} (hjd : j ≠ d) (t : String) (cnt : Nat) :
    ∀ l, alookup j (updTF d t cnt l) = alookup j l
  | [] => by simp [updTF, alookup, hjd]
  | (a, b) :: l => by
    by_cases hd : d = a
    · subst hd
      simp only [updTF, if_pos rfl, if_true, alookup_cons, if_neg hjd]
    · simp only [updTF, if_neg hd, alookup_cons]
      by_cases hj : j = a
      · rw [if_pos hj, if_pos hj]
      · rw [if_neg hj, if_neg hj]
        exact updTF_other hjd t cnt l

theorem updTerms_self (t : String) (cnt : Nat) :
    ∀ l, alookup t (updTerms t cnt l) = some cnt
  | [] => by simp [updTerms, alookup]
  | (a, b) :: l => by
    by_cases ht : t = a
    · subst ht
      simp [updTerms, alookup_cons]
    · simp only [updTerms, if_neg ht, alookup_cons, if_neg ht]
      exact updTerms_self t cnt l

theorem updTerms_other {u t : String} (hut : u ≠ t) (cnt : Nat) :
    ∀ l, alookup u (updTerms t cnt l) = alookup u l
  | [] => by simp [updTerms, alookup, hut]
  | (a, b) :: l => by
    by_cases ht : t = a
    · subst ht
      simp only [updTerms, if_pos rfl, if_true, alookup_cons, if_neg hut]
    · simp only [updTerms, if_neg ht, alookup_cons]
      by_cases hu : u = a
      · rw [if_pos hu, if_pos hu]
      · rw [if_neg hu, if_neg hu]
        exact updTerms_other hut cnt l

theorem trsFor_cons (dict : TermDict) (t : String) (tr : Nat × Nat × List Nat)
    (trs : List (Nat × Nat × List Nat)) :
    trsFor dict t (tr :: trs) =
      (if alookup tr.2.1 dict.idx2term = some t then
        [{ doc_id := tr.1, positions := tr.2.2 }] else []) ++ trsFor dict t trs := by
  by_cases h : alookup tr.2.1 dict.idx2term = some t
  · simp [trsFor, List.filterMap_cons, h]
  · simp [trsFor, List.filterMap_cons, h]

theorem docTrs_cons (d : Nat) (tr : Nat × Nat × List Nat)
    (trs : List (Nat × Nat × List Nat)) :
    docTrs d (tr :: trs) =
      (if tr.1 = d then [(tr.2.1, tr.2.2)] else []) ++ docTrs d trs := by
  by_cases h : tr.1 = d
  · simp [docTrs, List.filterMap_cons, h]
  · simp [docTrs, List.filterMap_cons, h]

theorem foldPut_cons (dict : TermDict) (f : TermFreq) (e : Nat × List Nat)
    (es : List (Nat × List Nat)) :
    foldPut dict f (e :: es) =
      foldPut dict
        (match alookup e.1 dict.idx2term with
         | some t => f.put_term t e.2.length
         | none => f) es := rfl

theorem buildAux_spec :
    ∀ (trs : List (Nat × Nat × List Nat)) (dict : TermDict)
      (idx0 : PositionalIndex),
    (∀ tr ∈ trs, ∃ t, alookup tr.2.1 dict.idx2term = some t) →
    ∃ idx', buildAux dict idx0 trs = some idx' ∧
      idx'.doc_count = idx0.doc_count ∧
      idx'.stored = idx0.stored ∧
      (∀ t, postingsAt t idx' = postingsAt t idx0 ++ trsFor dict t trs) ∧
      (∀ d, alookup d idx'.term_freq =
        match alookup d idx0.term_freq with
        | some f => some (foldPut dict f (docTrs d trs))
        | none =>
          if docTrs d trs = [] then none
          else some (foldPut dict TermFreq.new (docTrs d trs))) := by
  intro trs
  induction trs with
  | nil =>
    intro dict idx0 hmap
    refine ⟨idx0, rfl, rfl, rfl, ?_, ?_⟩
    · intro t
      simp [trsFor]
    · intro d
      cases h : alookup d idx0.term_freq with
      | none => simp [docTrs]
      | some f => simp [docTrs, foldPut]
  | cons tr trs ih =>
    intro dict idx0 hmap
    obtain ⟨t0, ht0⟩ := hmap tr (List.mem_cons_self _ _)
    have hstep : buildStep dict idx0 tr =
        some ((idx0.push_term_freq tr.1 t0 tr.2.2.length).push_posting t0
          { doc_id := tr.1, positions := tr.2.2 }) := by
      simp [buildStep, TermDict.term, ht0]
    have hred : buildAux dict idx0 (tr :: trs) =
        buildAux dict
          ((idx0.push_term_freq tr.1 t0 tr.2.2.length).push_posting t0
            { doc_id := tr.1, positions := tr.2.2 }) trs := by
      simp [buildAux, hstep]
    obtain ⟨idx', hb, hdc, hst, hpost, htf⟩ :=
      ih dict ((idx0.push_term_freq tr.1 t0 tr.2.2.length).push_posting t0
        { doc_id := tr.1, positions := tr.2.2 })
        (fun tr' htr' => hmap tr' (List.mem_cons_of_mem _ htr'))
    refine ⟨idx', by rw [hred]; exact hb, by rw [hdc]; rfl, by rw [hst]; rfl, ?_, ?_⟩
    · intro t
      rw [hpost t, trsFor_cons]
      by_cases htt : t = t0
      · subst htt
        have : postingsAt t
            ((idx0.push_term_freq tr.1 t tr.2.2.length).push_posting t
              { doc_id := tr.1, positions := tr.2.2 }) =
            postingsAt t idx0 ++ [{ doc_id := tr.1, positions := tr.2.2 }] := by
          simp [postingsAt, PositionalIndex.push_posting,
            PositionalIndex.push_term_freq, updPostings_self]
        rw [this, if_pos ht0, List.append_assoc]
      · have : postingsAt t
            ((idx0.push_term_freq tr.1 t0 tr.2.2.length).push_posting t0
              { doc_id := tr.1, positions := tr.2.2 }) = postingsAt t idx0 := by
          simp [postingsAt, PositionalIndex.push_posting,
            PositionalIndex.push_term_freq, updPostings_other htt]
        rw [this, if_neg (by rw [ht0]; simp; exact fun hh => htt hh.symm)]
        simp
    · intro d
      rw [htf d, docTrs_cons]
      by_cases htr : tr.1 = d
      · have hup : alookup d
            ((idx0.push_term_freq tr.1 t0 tr.2.2.length).push_posting t0
              { doc_id := tr.1, positions := tr.2.2 }).term_freq =
            some (((alookup d idx0.term_freq).getD TermFreq.new).put_term t0
              tr.2.2.length) := by
          simp only [PositionalIndex.push_posting, PositionalIndex.push_term_freq]
          rw [← htr]
          exact updTF_self tr.1 t0 tr.2.2.length idx0.term_freq
        rw [hup, if_pos htr]
        cases h0 : alookup d idx0.term_freq with
        | some f =>
          simp only [Option.getD]
          rw [List.singleton_append, foldPut_cons]
          simp [ht0]
        | none =>
          simp only [Option.getD]
          rw [List.singleton_append, if_neg (by simp), foldPut_cons]
          simp [ht0]
      · have hup : alookup d
            ((idx0.push_term_freq tr.1 t0 tr.2.2.length).push_posting t0
              { doc_id := tr.1, positions := tr.2.2 }).term_freq =
            alookup d idx0.term_freq := by
          simp only [PositionalIndex.push_posting, PositionalIndex.push_term_freq]
          exact updTF_other (fun hh => htr hh.symm) t0 tr.2.2.length idx0.term_freq
        rw [hup, if_neg htr, List.nil_append]

theorem storeFold_fields :
    ∀ (st : List (Nat × Document)) (idx : PositionalIndex),
    (st.foldl (fun i e => i.store_document e.1 e.2) idx).postings = idx.postings ∧
    (st.foldl (fun i e => i.store_document e.1 e.2) idx).term_freq = idx.term_freq ∧
    (st.foldl (fun i e => i.store_document e.1 e.2) idx).doc_count = idx.doc_count
  | [], idx => ⟨rfl, rfl, rfl⟩
  | e :: st, idx => by
    rw [List.foldl_cons]
    obtain ⟨h1, h2, h3⟩ := storeFold_fields st (idx.store_document e.1 e.2)
    exact ⟨h1, h2, h3⟩

theorem built_char (docs : List Document) {idx : PositionalIndex}
    (hb : buildFromDocs docs = some idx) :
    idx.doc_count = docs.length ∧
    (∀ t, postingsAt t idx =
      trsFor (writeAll docs).term_dict t (writeAll docs).term_positions) ∧
    (∀ d, alookup d idx.term_freq =
      (if docTrs d (writeAll docs).term_positions = [] then none
       else some (foldPut (writeAll docs).term_dict TermFreq.new
         (docTrs d (writeAll docs).term_positions)))) := by
  have hw := WAInv_writeAll docs
  obtain ⟨idx', hba, hdc, hst, hpost, htf⟩ :=
    buildAux_spec (writeAll docs).term_positions (writeAll docs).term_dict
      (PositionalIndex.new (writeAll docs).seq) hw.tp_mapped
  have hbuild : buildFromDocs docs =
      some ((writeAll docs).stored.foldl
        (fun i e => i.store_document e.1 e.2) idx') := by
    rw [buildFromDocs, IndexWriter.build, hba]
    rfl
  rw [hb] at hbuild
  have hidx := Option.some.inj hbuild
  obtain ⟨hfp, hftf, hfdc⟩ := storeFold_fields (writeAll docs).stored idx'
  refine ⟨?_, ?_, ?_⟩
  · rw [hidx, hfdc, hdc, hw.seq_eq]
    rfl
  · intro t
    rw [postingsAt, hidx, hfp, ← postingsAt, hpost t]
    simp [postingsAt, PositionalIndex.new, alookup, PostingList.new]
  · intro d
    rw [hidx, hftf, htf d]
    simp [PositionalIndex.new, alookup]

theorem trsFor_pairwise (docs : List Document) (t : String) :
    List.Pairwise (fun a b : PostingData => a.doc_id < b.doc_id)
      (trsFor (writeAll docs).term_dict t (writeAll docs).term_positions) := by
  have hw := WAInv_writeAll docs
  rw [trsFor]
  refine List.Pairwise.filterMap _ ?_ hw.tp_pairwise
  intro a b hr pa hpa pb hpb
  by_cases hma : alookup a.2.1 (writeAll docs).term_dict.idx2term = some t
  · by_cases hmb : alookup b.2.1 (writeAll docs).term_dict.idx2term = some t
    · rw [if_pos hma, Option.mem_def] at hpa
      rw [if_pos hmb, Option.mem_def] at hpb
      cases hpa
      cases hpb
      rcases hr with hr | ⟨hdeq, hineq⟩
      · exact hr
      · exfalso
        apply hineq
        have h1 := hw.dinv.i2t_t2i _ _ hma
        have h2 := hw.dinv.i2t_t2i _ _ hmb
        rw [h1] at h2
        exact Option.some.inj h2
    · rw [if_neg hmb] at hpb
      cases hpb
  · rw [if_neg hma] at hpa
    cases hpa

theorem trsFor_doc_lt (docs : List Document) (t : String) :
    ∀ pd ∈ trsFor (writeAll docs).term_dict t (writeAll docs).term_positions,
      pd.doc_id < docs.length := by
  have hw := WAInv_writeAll docs
  intro pd hpd
  obtain ⟨tr, htr, hf⟩ := List.mem_filterMap.1 hpd
  by_cases hm : alookup tr.2.1 (writeAll docs).term_dict.idx2term = some t
  · rw [if_pos hm] at hf
    cases hf
    rw [← hw.seq_eq]
    exact hw.tp_doc_lt tr htr
  · rw [if_neg hm] at hf
    cases hf

theorem built_postings (docs : List Document) {idx : PositionalIndex}
    (hb : buildFromDocs docs = some idx) :
    ∀ t pl, alookup t idx.postings = some pl →
      pl.postings =
        trsFor (writeAll docs).term_dict t (writeAll docs).term_positions ∧
      List.Pairwise (fun a b : PostingData => a.doc_id < b.doc_id) pl.postings ∧
      ∀ pd ∈ pl.postings, pd.doc_id < idx.doc_count := by
  obtain ⟨hdc, hpost, _⟩ := built_char docs hb
  intro t pl hpl
  have heq : pl.postings =
      trsFor (writeAll docs).term_dict t (writeAll docs).term_positions := by
    have := hpost t
    rw [postingsAt, hpl] at this
    simpa using this
  refine ⟨heq, ?_, ?_⟩
  · rw [heq]
    exact trsFor_pairwise docs t
  · intro pd hpd
    rw [hdc]
    exact trsFor_doc_lt docs t pd (heq ▸ hpd)

theorem sumLens_cons (e : Nat × List Nat) (es : List (Nat × List Nat)) :
    sumLens (e :: es) = e.2.length + sumLens es := by
  simp [sumLens]

theorem foldPut_spec (dict : TermDict) :
    ∀ (entries : List (Nat × List Nat)) (f : TermFreq),
    (∀ e ∈ entries, ∃ t, alookup e.1 dict.idx2term = some t) →
    List.Pairwise (fun a b : Nat × List Nat =>
      ∀ ta tb, alookup a.1 dict.idx2term = some ta →
        alookup b.1 dict.idx2term = some tb → ta ≠ tb) entries →
    (foldPut dict f entries).term_count = f.term_count + sumLens entries ∧
    ∀ t, alookup t (foldPut dict f entries).terms =
      match entries.find?
        (fun e => decide (alookup e.1 dict.idx2term = some t)) with
      | some e => some e.2.length
      | none => alookup t f.terms := by
  intro entries
  induction entries with
  | nil =>
    intro f _ _
    refine ⟨by simp [foldPut, sumLens], ?_⟩
    intro t
    simp [foldPut, List.find?]
  | cons e es ih =>
    intro f hmap hpw
    obtain ⟨te, hte⟩ := hmap e (List.mem_cons_self _ _)
    have hred : foldPut dict f (e :: es) =
        foldPut dict (f.put_term te e.2.length) es := by
      rw [foldPut_cons, hte]
    rw [hred]
    obtain ⟨ihc, iht⟩ := ih (f.put_term te e.2.length)
      (fun e' he' => hmap e' (List.mem_cons_of_mem _ he'))
      (List.Pairwise.sublist (List.sublist_cons_self _ _) hpw)
    constructor
    · rw [ihc, sumLens_cons]
      simp [TermFreq.put_term]
      omega
    · intro t
      rw [iht t]
      by_cases htt : te = t
      · subst htt
        have hnone : es.find?
            (fun e' => decide (alookup e'.1 dict.idx2term = some te)) = none := by
          rw [List.find?_eq_none]
          intro x hx hpx
          rw [decide_eq_true_iff] at hpx
          exact (List.rel_of_pairwise_cons hpw hx) te te hte hpx rfl
        have hfind : (e :: es).find?
            (fun e' => decide (alookup e'.1 dict.idx2term = some te)) = some e := by
          rw [List.find?_cons]
          simp [hte]
        rw [hnone, hfind]
        simp [TermFreq.put_term, updTerms_self]
      · have hfalse : decide (alookup e.1 dict.idx2term = some t) = false := by
          simp [hte]
          exact htt
        have hfind : (e :: es).find?
            (fun e' => decide (alookup e'.1 dict.idx2term = some t)) =
            es.find? (fun e' => decide (alookup e'.1 dict.idx2term = some t)) := by
          rw [List.find?_cons, hfalse]
        rw [hfind]
        cases hf : es.find?
            (fun e' => decide (alookup e'.1 dict.idx2term = some t)) with
        | some e' => rfl
        | none =>
          simp only [TermFreq.put_term]
          exact updTerms_other (fun hh => htt hh.symm) e.2.length f.terms

theorem occurrencesOf_le (t : String) (toks : List Token) :
    occurrencesOf t toks ≤ numTermToks toks := by
  apply List.countP_mono_left
  intro tok _ h
  rw [decide_eq_true_iff] at h
  simp [Token.isTermTok, h]

theorem built_term_freq (docs : List Document) {idx : PositionalIndex}
    (hb : buildFromDocs docs = some idx) (d : Nat) :
    (docs[d]? = none → alookup d idx.term_freq = none) ∧
    (∀ dc, docs[d]? = some dc →
      (numTermToks (tokenize dc.body) = 0 → alookup d idx.term_freq = none) ∧
      (numTermToks (tokenize dc.body) ≠ 0 →
        ∃ f, alookup d idx.term_freq = some f ∧
          f.term_count = numTermToks (tokenize dc.body) ∧
          ∀ t, (alookup t f.terms).getD 0 = occurrencesOf t (tokenize dc.body))) := by
  have hw := WAInv_writeAll docs
  obtain ⟨hdc, hpost, htf⟩ := built_char docs hb
  constructor
  · intro hd
    rw [htf d, if_pos (hw.blocks_none d hd)]
  · intro dc hd
    have hblock := hw.blocks d dc hd
    constructor
    · intro hnum
      rw [htf d]
      rw [if_pos ?_]
      cases hb2 : docTrs d (writeAll docs).term_positions with
      | nil => rfl
      | cons e rest =>
        exfalso
        have he : e ∈ docTrs d (writeAll docs).term_positions := by
          rw [hb2]
          exact List.mem_cons_self _ _
        obtain ⟨t, _, _, hne⟩ := hblock.entryOf e he
        have h1 : 0 < e.2.length := List.length_pos.2 hne
        have h2 := hblock.total_eq
        rw [hb2, sumLens_cons] at h2
        omega
    · intro hnum
      have hne : docTrs d (writeAll docs).term_positions ≠ [] := by
        intro h0
        have h2 := hblock.total_eq
        rw [h0] at h2
        simp [sumLens] at h2
        exact hnum h2.symm
      rw [htf d, if_neg hne]
      have hmap : ∀ e ∈ docTrs d (writeAll docs).term_positions,
          ∃ t, alookup e.1 (writeAll docs).term_dict.idx2term = some t := by
        intro e he
        obtain ⟨t, ht, _, _⟩ := hblock.entryOf e he
        exact ⟨t, ht⟩
      have hpw : List.Pairwise (fun a b : Nat × List Nat =>
          ∀ ta tb, alookup a.1 (writeAll docs).term_dict.idx2term = some ta →
            alookup b.1 (writeAll docs).term_dict.idx2term = some tb → ta ≠ tb)
          (docTrs d (writeAll docs).term_positions) := by
        have hnd : List.Pairwise (fun a b : Nat × List Nat => a.1 ≠ b.1)
            (docTrs d (writeAll docs).term_positions) := by
          have hx := hblock.nodupKeys
          rw [List.Nodup, List.pairwise_map] at hx
          exact hx
        refine hnd.imp ?_
        intro a b hab ta tb hta htb heq
        apply hab
        have h1 := hw.dinv.i2t_t2i _ _ hta
        have h2 := hw.dinv.i2t_t2i _ _ htb
        rw [heq] at h1
        rw [h1] at h2
        exact Option.some.inj h2
      obtain ⟨hcnt, hterms⟩ := foldPut_spec (writeAll docs).term_dict
        (docTrs d (writeAll docs).term_positions) TermFreq.new hmap hpw
      refine ⟨_, rfl, ?_, ?_⟩
      · rw [hcnt, hblock.total_eq]
        simp [TermFreq.new]
      · intro t
        rw [hterms t]
        cases hf : (docTrs d (writeAll docs).term_positions).find?
            (fun e => decide (alookup e.1 (writeAll docs).term_dict.idx2term
              = some t)) with
        | some e =>
          have hpred := List.find?_some hf
          rw [decide_eq_true_iff] at hpred
          obtain ⟨t', ht', hlen, _⟩ :=
            hblock.entryOf e (List.mem_of_find?_eq_some hf)
          rw [ht'] at hpred
          cases hpred
          simpa using hlen
        | none =>
          have hno := List.find?_eq_none.1 hf
          have hocc : occurrencesOf t (tokenize dc.body) = 0 := by
            by_contra hnz
            obtain ⟨e, he, het⟩ := hblock.covers t hnz
            exact absurd (by simp [het] : (fun e : Nat × List Nat =>
              decide (alookup e.1 (writeAll docs).term_dict.idx2term = some t)) e
                = true) (hno e he)
          simp [TermFreq.new, alookup, hocc]

/-! ### Tokenizer lemmas -/

theorem tokenizeAux_positions :
    ∀ (cs term : List Char) (base wc : Nat),
    (tokenizeAux cs term base wc).map Token.position =
      List.range' wc (tokenizeAux cs term base wc).length := by
  intro cs
  induction cs with
  | nil =>
    intro term base wc
    by_cases h : term.isEmpty
    · simp [tokenizeAux, h]
    · simp [tokenizeAux, h, Token.new_term, List.range']
  | cons c cs ih =>
    intro term base wc
    by_cases hws : rustIsWhitespace c
    · by_cases hemp : term.isEmpty
      · simp only [tokenizeAux, if_pos hws, if_pos hemp]
        exact ih [] (base + c.utf8Size) wc
      · simp only [tokenizeAux, if_pos hws, if_neg hemp]
        rw [List.map_cons, ih [] (base + c.utf8Size) (wc + 1), List.length_cons]
        rfl
    · by_cases hp : rustIsAsciiPunct c
      · simp only [tokenizeAux, if_neg hws, if_pos hp]
        rw [List.map_cons, List.map_cons, ih [] (base + c.utf8Size) (wc + 2),
          List.length_cons, List.length_cons]
        rfl
      · simp only [tokenizeAux, if_neg hws, if_neg hp]
        exact ih (term ++ [c]) (base + c.utf8Size) wc

theorem indexTokens_filter :
    ∀ (toks : List Token) (st : TermDict × List (Nat × List Nat)),
    indexTokens st toks = indexTokens st (toks.filter Token.isTermTok) := by
  intro toks
  induction toks with
  | nil => intro st; rfl
  | cons tok toks ih =>
    intro st
    cases hk : tok.kind with
    | Term u =>
      have hft : Token.isTermTok tok = true := by simp [Token.isTermTok, hk]
      rw [List.filter_cons_of_pos hft]
      simp only [indexTokens, hk]
      exact ih _
    | Punct p =>
      have hft : ¬ Token.isTermTok tok = true := by simp [Token.isTermTok, hk]
      rw [List.filter_cons_of_neg hft]
      simp only [indexTokens, hk]
      exact ih _

theorem length_eq_of_cover {L : List Nat} {n : Nat}
    (hpw : List.Pairwise (fun a b => a < b) L) (hbound : ∀ x ∈ L, x < n)
    (hcover : ∀ d, d < n → d ∈ L) : L.length = n := by
  have hnd : L.Nodup := hpw.imp (fun h => Nat.ne_of_lt h)
  have h1 : L.length ≤ n := by
    have hs := List.Subperm.length_le (List.subperm_of_subset hnd
      (fun x hx => List.mem_range.2 (hbound x hx)))
    simpa using hs
  have h2 : n ≤ L.length := by
    have hs := List.Subperm.length_le (List.subperm_of_subset (List.nodup_range n)
      (fun d hd => hcover d (List.mem_range.1 hd)))
    simpa using hs
  omega

/-! ### Claim theorems -/

/-- C2: for every index produced by building after any sequence of writes,
every posting list has strictly ascending doc_id values: no duplicates and
no inversions. -/
theorem claim_C2 (docs : List Document) (idx : PositionalIndex)
    (hb : buildFromDocs docs = some idx) :
    ∀ t pl, alookup t idx.postings = some pl →
      List.Pairwise (fun a b => a.doc_id < b.doc_id) pl.postings :=
  fun t pl hpl => (built_postings docs hb t pl hpl).2.1

theorem claim_C2_witness :
    buildFromDocs docsI = some idxI ∧
    alookup "is" idxI.postings = some
      { postings := [{ doc_id := 0, positions := [1] },
                     { doc_id := 2, positions := [2, 3, 6, 8, 10, 14] }] } ∧
    List.Pairwise (fun a b => a.doc_id < b.doc_id)
      (PostingList.postings
        { postings := [{ doc_id := 0, positions := [1] },
                       { doc_id := 2, positions := [2, 3, 6, 8, 10, 14] }] }) :=
  ⟨rfl, rfl, claim_C2 docsI idxI rfl "is" _ rfl⟩

/-- C10: every document that has a term-frequency table entry in a built
index has total term_count at least one, so the tf division has a nonzero
denominator for indexed documents. -/
theorem claim_C10 (docs : List Document) (idx : PositionalIndex)
    (hb : buildFromDocs docs = some idx) :
    ∀ d f, alookup d idx.term_freq = some f → 1 ≤ f.term_count := by
  intro d f hf
  have btf := built_term_freq docs hb d
  cases hd : docs[d]? with
  | none =>
    rw [btf.1 hd] at hf
    cases hf
  | some dc =>
    by_cases hnum : numTermToks (tokenize dc.body) = 0
    · rw [((btf.2 dc hd).1 hnum)] at hf
      cases hf
    · obtain ⟨f', hf', hcount, _⟩ := (btf.2 dc hd).2 hnum
      rw [hf'] at hf
      cases hf
      omega

theorem claim_C10_witness :
    buildFromDocs docs3 = some idx3 ∧
    alookup 0 idx3.term_freq = some
      { term_count := 5, terms := [("dog", 3), ("monkey", 1), ("bird", 1)] } ∧
    1 ≤ TermFreq.term_count
      { term_count := 5, terms := [("dog", 3), ("monkey", 1), ("bird", 1)] } :=
  ⟨rfl, rfl, claim_C10 docs3 idx3 rfl 0 _ rfl⟩

/-- C4: in a built index, tf(doc_id, term) is the number of occurrences of
the term among the Term tokens of that document divided by the total Term
token count of the document, and it is 0 when the doc_id is unknown or the
term never occurs there. -/
theorem claim_C4 (docs : List Document) (idx : PositionalIndex)
    (hb : buildFromDocs docs = some idx) (d : Nat) (t : String) :
    (idx.tf d t = match docs[d]? with
      | none => (0 : ℝ)
      | some dc => ((occurrencesOf t (tokenize dc.body) : ℝ) /
          (numTermToks (tokenize dc.body) : ℝ))) ∧
    (docs[d]? = none → idx.tf d t = 0) ∧
    (∀ dc, docs[d]? = some dc → occurrencesOf t (tokenize dc.body) = 0 →
      idx.tf d t = 0) := by
  have btf := built_term_freq docs hb d
  have hmain : idx.tf d t = match docs[d]? with
      | none => (0 : ℝ)
      | some dc => ((occurrencesOf t (tokenize dc.body) : ℝ) /
          (numTermToks (tokenize dc.body) : ℝ)) := by
    cases hd : docs[d]? with
    | none =>
      rw [PositionalIndex.tf, btf.1 hd]
    | some dc =>
      by_cases hnum : numTermToks (tokenize dc.body) = 0
      · have hocc : occurrencesOf t (tokenize dc.body) = 0 := by
          have := occurrencesOf_le t (tokenize dc.body)
          omega
        rw [PositionalIndex.tf, (btf.2 dc hd).1 hnum]
        simp [hocc]
      · obtain ⟨f, hf, hcount, hterms⟩ := (btf.2 dc hd).2 hnum
        rw [PositionalIndex.tf, hf]
        simp only [TermFreq.tf, hterms t, hcount]
  refine ⟨hmain, ?_, ?_⟩
  · intro hd
    rw [hmain, hd]
  · intro dc hd hocc
    rw [hmain, hd]
    simp [hocc]

theorem claim_C4_witness :
    buildFromDocs docs3 = some idx3 ∧
    idx3.tf 0 "dog" =
      ((occurrencesOf "dog" (tokenize "dog dog dog monkey bird") : ℝ) /
        (numTermToks (tokenize "dog dog dog monkey bird") : ℝ)) := by
  refine ⟨rfl, ?_⟩
  have h := (claim_C4 docs3 idx3 rfl 0 "dog").1
  simpa using h

/-- C3: in a built index, idf(term) is log2(doc_count divided by the posting
count plus one) floored at 0, hence never negative, and it is 0 whenever the
term has a posting for every document of the index. -/
theorem claim_C3 (docs : List Document) (idx : PositionalIndex)
    (hb : buildFromDocs docs = some idx) (t : String) :
    (idx.idf t = max (Real.logb 2 ((idx.doc_count : ℝ) /
      ((matchDocCount idx t + 1 : Nat) : ℝ))) 0) ∧
    0 ≤ idx.idf t ∧
    (∀ pl, alookup t idx.postings = some pl →
      (∀ d, d < idx.doc_count → ∃ pd ∈ pl.postings, pd.doc_id = d) →
      idx.idf t = 0) := by
  refine ⟨rfl, le_max_right _ 0, ?_⟩
  intro pl hpl hcover
  obtain ⟨_, hpw, hbound⟩ := built_postings docs hb t pl hpl
  have hpwL : List.Pairwise (fun a b => a < b)
      (pl.postings.map PostingData.doc_id) := by
    rw [List.pairwise_map]
    exact hpw
  have hboundL : ∀ x ∈ pl.postings.map PostingData.doc_id, x < idx.doc_count := by
    intro x hx
    obtain ⟨pd, hpd, rfl⟩ := List.mem_map.1 hx
    exact hbound pd hpd
  have hcoverL : ∀ d, d < idx.doc_count →
      d ∈ pl.postings.map PostingData.doc_id := by
    intro d hd
    obtain ⟨pd, hpd, hdid⟩ := hcover d hd
    exact List.mem_map.2 ⟨pd, hpd, hdid⟩
  have hlen : pl.postings.length = idx.doc_count := by
    have := length_eq_of_cover hpwL hboundL hcoverL
    simpa using this
  have hmdc : matchDocCount idx t = idx.doc_count := by
    simp only [matchDocCount, hpl]
    exact hlen
  rw [PositionalIndex.idf, hmdc]
  rcases Nat.eq_zero_or_pos idx.doc_count with hz | hpos
  · rw [hz]
    norm_num [Real.logb_zero]
  · have hlt : Real.logb 2 ((idx.doc_count : ℝ) /
        ((idx.doc_count + 1 : Nat) : ℝ)) < 0 := by
      apply Real.logb_neg one_lt_two
      · apply div_pos
        · exact_mod_cast hpos
        · push_cast
          positivity
      · rw [div_lt_one (by push_cast; positivity)]
        push_cast
        exact lt_add_one _
    exact max_eq_right (le_of_lt hlt)

theorem claim_C3_witness :
    buildFromDocs docs3 = some idx3 ∧
    ((idx3.idf "dog" = max (Real.logb 2 ((idx3.doc_count : ℝ) /
        ((matchDocCount idx3 "dog" + 1 : Nat) : ℝ))) 0) ∧
      0 ≤ idx3.idf "dog") ∧
    idx3.idf "dog" = 0 := by
  have h := claim_C3 docs3 idx3 rfl "dog"
  refine ⟨rfl, ⟨h.1, h.2.1⟩, ?_⟩
  apply h.2.2 { postings := [{ doc_id := 0, positions := [0, 1, 2] },
    { doc_id := 1, positions := [0] }, { doc_id := 2, positions := [0] }] } rfl
  intro d hd
  have h3 : idx3.doc_count = 3 := rfl
  rw [h3] at hd
  interval_cases d <;> decide

/-- C5: for every dictionary built by any sequence of add_term calls, the
two mappings round-trip: every id below len resolves to a term whose index
is that id, and every added term resolves to an id whose term is that
term. -/
theorem claim_C5 (ts : List String) :
    (∀ i, i < (addAll ts).len →
      ∃ t, (addAll ts).term i = some t ∧ (addAll ts).index t = some i) ∧
    (∀ t ∈ ts,
      ∃ i, (addAll ts).index t = some i ∧ (addAll ts).term i = some t) := by
  obtain ⟨hinv, _, hmem⟩ := addAll_aux ts TermDict.new dictInv_new
  constructor
  · intro i hi
    obtain ⟨t, ht⟩ := hinv.i2t_total i hi
    exact ⟨t, ht, hinv.i2t_t2i i t ht⟩
  · intro t ht
    obtain ⟨i, hi⟩ := hmem t ht
    exact ⟨i, hi, hinv.t2i_i2t t i hi⟩

theorem claim_C5_witness :
    (∃ t, (addAll ["This", "is", "a", "pen"]).term 0 = some t ∧
      (addAll ["This", "is", "a", "pen"]).index t = some 0) ∧
    (∃ i, (addAll ["This", "is", "a", "pen"]).index "pen" = some i ∧
      (addAll ["This", "is", "a", "pen"]).term i = some "pen") :=
  ⟨(claim_C5 ["This", "is", "a", "pen"]).1 0 (by decide),
   (claim_C5 ["This", "is", "a", "pen"]).2 "pen" (by decide)⟩

/-- C6: a lookup that finds nothing yields an empty result, never a
failure: search_term on a term without a posting list returns the empty
sequence, and doc on an unknown id returns none; both are pure reads. -/
theorem claim_C6 (idx : PositionalIndex) (t : String) (id : Nat) :
    (alookup t idx.postings = none → search_term idx t = []) ∧
    (alookup id idx.stored = none → idx.doc id = none) := by
  constructor
  · intro h
    rw [search_term, h]
  · intro h
    rw [PositionalIndex.doc]
    exact h

theorem claim_C6_witness :
    alookup "foo" idx3.postings = none ∧
    alookup 100 idx3.stored = none ∧
    search_term idx3 "foo" = [] ∧
    idx3.doc 100 = none :=
  ⟨rfl, rfl, (claim_C6 idx3 "foo" 100).1 rfl, (claim_C6 idx3 "foo" 100).2 rfl⟩

/-- C7: the position assigned to every token equals its index in the token
sequence, so punctuation tokens consume one position slot each, and the
indexing loop of write treats the token sequence exactly as its Term tokens
with those positions: punctuation contributes no dictionary entry and no
recorded position. -/
theorem claim_C7 (s : String) :
    ((tokenize s).map Token.position =
      List.range' 0 (tokenize s).length) ∧
    (∀ st : TermDict × List (Nat × List Nat),
      indexTokens st (tokenize s) =
        indexTokens st ((tokenize s).filter Token.isTermTok)) :=
  ⟨tokenizeAux_positions s.data [] 0 0, fun st => indexTokens_filter (tokenize s) st⟩

/-- C8: the multi-term intersection iterator yields the empty sequence
whenever any queried term is absent from the index: construction
short-circuits to an exhausted iterator. -/
theorem claim_C8 (idx : PositionalIndex) (terms : List String) (t : String)
    (fuel : Nat) (ht : t ∈ terms) (hn : alookup t idx.postings = none) :
    (MultiTermIter.new idx terms).toList fuel = [] := by
  have hall : (terms.map (fun u => alookup u idx.postings)).all Option.isSome
      = false := by
    rw [List.all_eq_false]
    refine ⟨alookup t idx.postings, List.mem_map_of_mem _ ht, ?_⟩
    rw [hn]
    simp
  have hnew : MultiTermIter.new idx terms =
      { cursors := [], candidate := none } := by
    rw [MultiTermIter.new, hall]
    simp
  rw [hnew]
  cases fuel with
  | zero => rfl
  | succ fuel =>
    rw [MultiTermIter.toList, MultiTermIter.next]

theorem claim_C8_witness :
    "zebra" ∈ ["dog", "zebra"] ∧
    alookup "zebra" idx3.postings = none ∧
    (MultiTermIter.new idx3 ["dog", "zebra"]).toList 5 = [] :=
  ⟨by simp, rfl, claim_C8 idx3 ["dog", "zebra"] "zebra" 5 (by simp) rfl⟩

/-- C9: on the input string with a leading punctuation character, tokenize
emits a Term token whose string is empty, and write indexes that empty
string like any other term: it receives dictionary id 0 and a posting with
recorded position 0. -/
theorem claim_C9 :
    (∃ tok ∈ tokenize "? hi", tok.kind = TokenKind.Term "") ∧
    (IndexWriter.new.write { body := "? hi" }).term_dict.index "" = some 0 ∧
    (0, 0, [0]) ∈ (IndexWriter.new.write { body := "? hi" }).term_positions ∧
    buildFromDocs [{ body := "? hi" }] = some idx9 ∧
    alookup "" idx9.postings =
      some { postings := [{ doc_id := 0, positions := [0] }] } := by
  refine ⟨?_, by decide, by decide, rfl, rfl⟩
  decide

theorem ord_cmp_zero (a b : Nat) :
    DocAndScore.ord_cmp { score := 0, doc_id := a } { score := 0, doc_id := b } =
      (compare a b).swap := by
  have hcond : |((0 : ℝ)) - 0| ≤ f32Epsilon := by
    rw [sub_zero, abs_zero, f32Epsilon]
    positivity
  simp only [DocAndScore.ord_cmp, DocAndScore.score_cmp]
  rw [if_pos hcond]
  rfl

/-- C1: evaluation of search_term at the corpus of the tfidf tests of
lib.rs, term dog.  All three scores are tied (idf is 0), and the Ord
instance of lib.rs breaks score ties by doc_id reversed before an ascending
sort, so the result is [2, 1, 0] — while the spec, the test
tfidf_term_search_test of lib.rs and the comparator in doc.rs all require
[0, 1, 2]. -/
theorem claim_C1_eval :
    buildFromDocs docs3 = some idx3 ∧ search_term idx3 "dog" = [2, 1, 0] := by
  refine ⟨rfl, ?_⟩
  have hpl : alookup "dog" idx3.postings = some
      { postings := [{ doc_id := 0, positions := [0, 1, 2] },
        { doc_id := 1, positions := [0] },
        { doc_id := 2, positions := [0] }] } := rfl
  have hidf : idx3.idf "dog" = 0 := by
    have hm : matchDocCount idx3 "dog" = 3 := rfl
    have hd : idx3.doc_count = 3 := rfl
    rw [PositionalIndex.idf, hm, hd]
    have hlt : Real.logb 2 (((3 : Nat) : ℝ) / ((3 + 1 : Nat) : ℝ)) < 0 := by
      apply Real.logb_neg one_lt_two
      · norm_num
      · norm_num
    exact max_eq_right (le_of_lt hlt)
  have c12 : DocAndScore.ord_cmp { score := 0, doc_id := 1 }
      { score := 0, doc_id := 2 } = Ordering.gt := by
    rw [ord_cmp_zero]
    decide
  have c02 : DocAndScore.ord_cmp { score := 0, doc_id := 0 }
      { score := 0, doc_id := 2 } = Ordering.gt := by
    rw [ord_cmp_zero]
    decide
  have c01 : DocAndScore.ord_cmp { score := 0, doc_id := 0 }
      { score := 0, doc_id := 1 } = Ordering.gt := by
    rw [ord_cmp_zero]
    decide
  simp only [search_term, hpl]
  simp only [List.map_cons, List.map_nil, DocAndScore.new_with_score, hidf,
    mul_zero]
  simp only [sortByCmp, insertByCmp, c12, c02, c01, if_pos, if_true]
  simp [List.map_cons]
